import Mathlib

/-!
Verification development for the `tree` repository (`tree.py`).

The Python class `Tree` is modelled by the inductive type `TreePy.Node`:
Python strings are modelled as `List Char` (`Str`), floats as exact rationals
(`ℚ`, the idealisation allowed by the spec's "floating-point round-trip
tolerance"), and Python exceptions (`ValueError` from `float()`/tuple
unpacking, `IndexError` from `list.pop()`/`list[-1]`/`str[0]` on empty) as an
`Except PyErr` result.  Methods that mutate `self` are modelled as functions
returning the new node state; `infoAdd` additionally returns its state at the
moment an exception is raised, because Python mutations performed before a
`raise` persist.
-/

namespace TreePy

/-- Python strings, modelled as lists of characters. -/
abbrev Str := List Char

/-- Python runtime errors raised by `tree.py`:
`valueError` is raised by `float()` on a non-numeric string (this is what the
spec calls `MalformedPayload`) and by unpacking a `split` of the wrong length;
`indexError` is raised by `pop`/`[-1]` on an empty list and `s[0]` on an
empty string. -/
inductive PyErr where
  | valueError : PyErr
  | indexError : PyErr
  deriving DecidableEq, Repr

/-- The iteration modes of `Tree.__iter__` (`self.mode`). -/
inductive Mode where
  | dfs_stack : Mode
  | dfs : Mode
  | bfs : Mode
  deriving DecidableEq, Repr

/-- A `Tree` node from `tree.py`: attributes `name`, `branchlen`, `comment`,
`children`, `mode` as set up in `Tree.__init__`. -/
inductive Node where
  | mk (name : Option Str) (branchlen : Option ℚ) (comment : Option Str)
      (children : List Node) (mode : Mode) : Node

/-- Attribute `self.name`. -/
def Node.name : Node → Option Str
  | .mk n _ _ _ _ => n

/-- Attribute `self.branchlen`. -/
def Node.branchlen : Node → Option ℚ
  | .mk _ b _ _ _ => b

/-- Attribute `self.comment`. -/
def Node.comment : Node → Option Str
  | .mk _ _ c _ _ => c

/-- Attribute `self.children`. -/
def Node.children : Node → List Node
  | .mk _ _ _ cs _ => cs

/-- Attribute `self.mode`. -/
def Node.mode : Node → Mode
  | .mk _ _ _ _ m => m

/-- A freshly constructed `Tree()` (the result of `createNode()`):
all payload attributes `None`, no children, mode `'dfs_stack'`. -/
def defaultNode : Node := .mk none none none [] .dfs_stack

instance : Inhabited Node := ⟨defaultNode⟩

/-- Replace the `children` attribute of a node. -/
def Node.setChildren : Node → List Node → Node
  | .mk n b c _ m, cs => .mk n b c cs m

mutual
/-- Number of nodes of a tree (the mathematical node count; `Tree.size()` is
defined below through the traversal engine and proved equal to this). -/
def numNodes : Node → Nat
  | .mk _ _ _ cs _ => 1 + numNodesAll cs

/-- Total node count of a forest. -/
def numNodesAll : List Node → Nat
  | [] => 0
  | t :: ts => numNodes t + numNodesAll ts
end

mutual
/-- The sequence yielded by the recursive generator `Tree.dfs`:
yield `self`, then each child's full dfs sequence in child order. -/
def dfs : Node → List Node
  | .mk n b c cs m => .mk n b c cs m :: dfsAll cs

/-- Concatenation of `dfs` over a forest. -/
def dfsAll : List Node → List Node
  | [] => []
  | t :: ts => dfs t ++ dfsAll ts
end

mutual
/-- The sequence yielded by the recursive generator `Tree.bfsNoRoot`:
first every child in order, then each child's own `bfsNoRoot` sequence,
children processed in sibling order. -/
def bfsNoRoot : Node → List Node
  | .mk _ _ _ cs _ => cs ++ bfsNoRootAll cs

/-- Concatenation of `bfsNoRoot` over a forest. -/
def bfsNoRootAll : List Node → List Node
  | [] => []
  | t :: ts => bfsNoRoot t ++ bfsNoRootAll ts
end

/-- The sequence yielded by `Tree.bfs`: `self` first, then `bfsNoRoot`. -/
def bfs (t : Node) : List Node := t :: bfsNoRoot t

/-- Total node count of a forest, stated on appends. -/
theorem numNodesAll_append (a b : List Node) :
    numNodesAll (a ++ b) = numNodesAll a + numNodesAll b := by
  induction a with
  | nil => simp [numNodesAll]
  | cons t ts ih => simp [numNodesAll, ih]; ring

/-- Every node counts itself: `numNodes` is positive. -/
theorem numNodes_pos (t : Node) : 0 < numNodes t := by
  cases t with
  | mk n b c cs m => simp [numNodes]

/-- The sequence yielded by the generator `Tree.tree_gen_stack`, as a function
of the explicit stack (initially `[self]`): pop a node, yield it, then push its
children in reverse order (so the first child is on top of the stack).  The
stack is represented top-first, so Python's
`for child in node.children[::-1]: stack.append(child)` followed by
`stack.pop()` is `node.children ++ rest`. -/
def tree_gen_stack : List Node → List Node
  | [] => []
  | t :: rest => t :: tree_gen_stack (t.children ++ rest)
termination_by l => numNodesAll l
decreasing_by
  cases t with
  | mk n b c cs m =>
    simp [numNodesAll, numNodesAll_append, Node.children, numNodes]

/-- `Tree.__iter__`: dispatch on `self.mode`; the final `else` branch of the
Python code returns the bfs generator. -/
def iterList (t : Node) : List Node :=
  match t.mode with
  | .dfs_stack => tree_gen_stack [t]
  | .dfs => dfs t
  | .bfs => bfs t

/-- `Tree.order()`: `nodelist = [self]`, then append every node yielded by
`for node in self`. -/
def order (t : Node) : List Node := t :: iterList t

/-- `Tree.size()`: count the nodes yielded by `for node in self`. -/
def size (t : Node) : Nat := (iterList t).length

/-- `Tree.leaves()`: the nodes of the active traversal with no children. -/
def leaves (t : Node) : List Node :=
  (iterList t).filter (fun n => n.children.isEmpty)

/-! ### String helpers (Python `str` operations on `Str = List Char`) -/

/-- Python `s.split(c)` for a single-character separator: split on every
occurrence of `c`; `"".split(c) = [""]`. -/
def splitOnChar (c : Char) : Str → List Str
  | [] => [[]]
  | x :: xs =>
    if x = c then [] :: splitOnChar c xs
    else
      match splitOnChar c xs with
      | [] => [[x]]
      | w :: ws => (x :: w) :: ws

/-- Python `s.strip()`: drop leading and trailing whitespace. -/
def trimWs (s : Str) : Str :=
  ((s.dropWhile Char.isWhitespace).reverse.dropWhile Char.isWhitespace).reverse

/-- Python `s.rstrip(';')`: drop every trailing semicolon. -/
def rstripSemi (s : Str) : Str :=
  (s.reverse.dropWhile (fun c => c = ';')).reverse

/-- Numeric value of a digit string (most significant first). -/
def digitsVal (s : Str) : Nat :=
  s.foldl (fun acc c => 10 * acc + (c.toNat - '0'.toNat)) 0

/-- Is every character a decimal digit? -/
def allDigits (s : Str) : Bool := s.all Char.isDigit

/-- Decimal digits of a natural number, most significant first. -/
def natDigits : Nat → Str :=
  fun n => Nat.toDigits 10 n

/-- Unsigned part of Python `float(s)`: digits with an optional single decimal
point (`"1"`, `"1.5"`, `"1."`, `".5"`), at least one digit in total; the exact
rational value is returned.  Exponent forms are outside the Newick branch
lengths this repository handles and are not modelled. -/
def pyFloatCore (s : Str) : Option ℚ :=
  match splitOnChar '.' s with
  | [a] => if a ≠ [] ∧ allDigits a then some ((digitsVal a : ℚ)) else none
  | [a, b] =>
    if (a ≠ [] ∨ b ≠ []) ∧ allDigits a ∧ allDigits b then
      some ((digitsVal (a ++ b) : ℚ) / (10 : ℚ) ^ b.length)
    else none
  | _ => none

/-- Python `float(s)` on decimal literals: optional surrounding whitespace,
optional sign, then `pyFloatCore`; `none` models the `ValueError` raised on
any other input (e.g. `float("xyz")`). -/
def pyFloat (s : Str) : Option ℚ :=
  match trimWs s with
  | '-' :: rest => (pyFloatCore rest).map (fun q => -q)
  | '+' :: rest => pyFloatCore rest
  | rest => pyFloatCore rest

/-- A decimal rendering of a rational `q`, modelling Python `str(float)`:
integers print with a trailing `.0` (`str(2.0) = "2.0"`), other values print
with the shortest exact decimal expansion.  Python's `repr` of a float is the
shortest string that round-trips; for the decimal-valued branch lengths this
repository stores, that is the exact expansion modelled here (rationals
without a finite decimal expansion cannot arise from `pyFloat` and get a
fallback rendering). -/
def floatStr (q : ℚ) : Str :=
  let sign : Str := if q < 0 then ['-'] else []
  let a := |q|
  if a.den = 1 then sign ++ natDigits a.num.toNat ++ ['.', '0']
  else
    match (List.range 40).find? (fun k => a.den ∣ 10 ^ k) with
    | some k =>
      let scaled := a.num.toNat * (10 ^ k / a.den)
      let ds := natDigits scaled
      let ds := if ds.length ≤ k then List.replicate (k + 1 - ds.length) '0' ++ ds else ds
      sign ++ ds.take (ds.length - k) ++ ['.'] ++ ds.drop (ds.length - k)
    | none => sign ++ natDigits a.num.toNat ++ ['/'] ++ natDigits a.den

/-! ### Payload codec (`Tree.infoAdd`, `Tree.infoGet`) -/

/-- The body of `Tree.infoAdd(word)` acting on the three payload attributes.
Returns the attribute values after the call together with `.ok` (normal
return) or `.error` (a raised exception); the attribute values in the error
case are the ones already assigned when the exception was raised, because
Python mutations before a `raise` persist.  Mirrors the source line by line:
empty `word` returns immediately; `self.name = word`; on `':' in word`,
`name, word = word.split(':')` (a `ValueError` if the split is not a pair),
`self.name = name`; on `'[' in word`, `dist, comment = word.split('[')`,
`self.branchlen = float(dist)`, `self.comment = comment.replace(']', '')`;
otherwise `self.branchlen = float(word)`.  The returned status dict of the
Python code is ignored by every caller and not modelled. -/
def infoAddCore (name0 : Option Str) (bl0 : Option ℚ) (com0 : Option Str)
    (word : Str) : (Option Str × Option ℚ × Option Str) × Except PyErr Unit :=
  if word = [] then ((name0, bl0, com0), .ok ())
  else
    if word.contains ':' then
      match splitOnChar ':' word with
      | [n, rest] =>
        if rest.contains '[' then
          match splitOnChar '[' rest with
          | [d, com] =>
            match pyFloat d with
            | some q => ((some n, some q, some (com.filter (fun c => c ≠ ']'))), .ok ())
            | none => ((some n, bl0, com0), .error .valueError)
          | _ => ((some n, bl0, com0), .error .valueError)
        else
          match pyFloat rest with
          | some q => ((some n, some q, com0), .ok ())
          | none => ((some n, bl0, com0), .error .valueError)
      | _ => ((some word, bl0, com0), .error .valueError)
    else ((some word, bl0, com0), .ok ())

/-- `Tree.infoAdd(word)` on a node: the node state after the call, plus the
normal/exceptional status. -/
def infoAdd (t : Node) (word : Str) : Node × Except PyErr Unit :=
  match t with
  | .mk n b c cs m =>
    let r := infoAddCore n b c word
    (.mk r.1.1 r.1.2.1 r.1.2.2 cs m, r.2)

/-- Python truthiness of an optional string attribute (`None` and `''` are
falsy). -/
def strTruthy : Option Str → Bool
  | none => false
  | some s => !s.isEmpty

/-- Python truthiness of the optional `branchlen` attribute (`None` and `0.0`
are falsy). -/
def blTruthy : Option ℚ → Bool
  | none => false
  | some q => if q = 0 then false else true

/-- `Tree.infoGet()`: concatenate `name`, `':' + str(branchlen)` and
`'[' + comment + ']'`, each guarded by Python truthiness of the attribute. -/
def infoGet (t : Node) : Str :=
  (if strTruthy t.name then t.name.getD [] else []) ++
  (if blTruthy t.branchlen then ':' :: floatStr ((t.branchlen).getD 0) else []) ++
  (if strTruthy t.comment then '[' :: (t.comment.getD []) ++ [']'] else [])

mutual
/-- `Tree.newick()`: a leaf renders as `infoGet()`; an internal node renders
its children comma-separated inside parentheses (the loop starts `punct` at
`'('` and switches it to `','`), followed by `')'` and `infoGet()`. -/
def newickStr : Node → Str
  | .mk n b c cs m =>
    match cs with
    | [] => infoGet (.mk n b c [] m)
    | c0 :: rest => '(' :: newickJoin c0 rest ++ ')' :: infoGet (.mk n b c cs m)
termination_by t => 2 * numNodes t
decreasing_by
  simp [numNodes, numNodesAll]
  omega

/-- The comma-separated rendering of a non-empty child list. -/
def newickJoin : Node → List Node → Str
  | t, [] => newickStr t
  | t, t' :: ts => newickStr t ++ ',' :: newickJoin t' ts
termination_by t ts => 2 * (numNodes t + numNodesAll ts) + 1
decreasing_by
  all_goals simp [numNodes, numNodesAll]
  all_goals try omega
  have := numNodes_pos t
  omega
end

/-! ### The Newick parser (`Tree.newickLoad`)

Python's parser mutates a heap of aliased `Tree` objects through an explicit
stack of references.  The model makes that heap explicit: a store of node
records indexed by position, where `childAdd` appends the new node's index to
the parent record and `infoAdd` rewrites the record in place.  The pure tree
is read back from the store at the end. -/

/-- A `Tree` object on the modelled Python heap: its payload attributes plus
the store indices of its children. -/
structure Entry where
  ename : Option Str
  ebl : Option ℚ
  ecom : Option Str
  kids : List Nat
  emode : Mode
  deriving Repr

/-- The heap record of a fresh `Tree()` node. -/
def defaultEntry : Entry := ⟨none, none, none, [], .dfs_stack⟩

instance : Inhabited Entry := ⟨defaultEntry⟩

/-- Overwrite position `i` of a list (identity when out of range); models
assignment through an object reference. -/
def listSet : List α → Nat → α → List α
  | [], _, _ => []
  | _ :: xs, 0, a => a :: xs
  | x :: xs, n + 1, a => x :: listSet xs n a

/-- The record stored at index `i`. -/
def entryOf (st : List Entry) (i : Nat) : Entry := (st.get? i).getD defaultEntry

/-- `node.childAdd(newnode)` on the heap: append `kid` to the children of the
record at `i`. -/
def addKid (st : List Entry) (i kid : Nat) : List Entry :=
  let e := entryOf st i
  listSet st i { e with kids := e.kids ++ [kid] }

/-- `node.infoAdd(word)` on the heap: rewrite the record at `i` with the
attribute values `infoAddCore` produces (also on error, since assignments
before the exception persist), and report the normal/exceptional status. -/
def infoAddAt (st : List Entry) (i : Nat) (word : Str) :
    List Entry × Except PyErr Unit :=
  let e := entryOf st i
  let r := infoAddCore e.ename e.ebl e.ecom word
  (listSet st i { e with ename := r.1.1, ebl := r.1.2.1, ecom := r.1.2.2 }, r.2)

mutual
/-- Flatten an existing pure tree onto the heap (children first, so every
index in a `kids` list is a valid store position); returns the extended store
and the index of the flattened root. -/
def flattenNode : Node → List Entry → List Entry × Nat
  | .mk n b c cs m, st =>
    let r := flattenAll cs st
    (r.1 ++ [⟨n, b, c, r.2, m⟩], r.1.length)

/-- Flatten a forest onto the heap; returns the extended store and the indices
of the flattened roots. -/
def flattenAll : List Node → List Entry → List Entry × List Nat
  | [], st => (st, [])
  | t :: ts, st =>
    let r := flattenNode t st
    let r' := flattenAll ts r.1
    (r'.1, r.2 :: r'.2)
end

/-- Read a pure tree back out of the heap starting at index `i`.  `fuel`
bounds the recursion depth; the parser only ever builds acyclic stores, and
every call site passes the store length, which bounds the depth of any
acyclic store. -/
def buildNode (st : List Entry) : Nat → Nat → Node
  | 0, _ => defaultNode
  | fuel + 1, i =>
    let e := entryOf st i
    .mk e.ename e.ebl e.ecom (e.kids.map (buildNode st fuel)) e.emode

/-- The scanner state of `newickLoad`: the heap, the stack of open-parent
indices (`stack`, top first — Python appends and pops at the end of its
list), the index of the current node (`node`) and the accumulating token
buffer (`word`). -/
structure PSt where
  store : List Entry
  stack : List Nat
  node : Nat
  word : Str

/-- One character of the `for letter in newick` scan:
whitespace is skipped; `'('` creates a new child of the current node, pushes
the current node and descends; `','` finalises `word` into the current node,
returns to the parent on top of the stack (`stack[-1]`, an `IndexError` if
empty) and descends into a fresh sibling; `')'` finalises `word` and pops the
stack (`IndexError` if empty); any other character is appended to `word`. -/
def pstep (s : PSt) (c : Char) : Except PyErr PSt :=
  if c.isWhitespace then .ok s
  else if c = '(' then
    let newId := s.store.length
    let st1 := s.store ++ [defaultEntry]
    let st2 := addKid st1 s.node newId
    .ok ⟨st2, s.node :: s.stack, newId, []⟩
  else if c = ',' then
    let r := infoAddAt s.store s.node s.word
    match r.2 with
    | .error e => .error e
    | .ok _ =>
      match s.stack with
      | [] => .error .indexError
      | top :: _ =>
        let newId := r.1.length
        let st2 := r.1 ++ [defaultEntry]
        let st3 := addKid st2 top newId
        .ok ⟨st3, s.stack, newId, []⟩
  else if c = ')' then
    let r := infoAddAt s.store s.node s.word
    match r.2 with
    | .error e => .error e
    | .ok _ =>
      match s.stack with
      | [] => .error .indexError
      | top :: rest => .ok ⟨r.1, rest, top, []⟩
  else .ok { s with word := s.word ++ [c] }

/-- `Tree.newickLoad(newick)` on a tree `t` (the `self` object):
strip whitespace, strip trailing semicolons, fail with `IndexError` when the
result is empty (Python indexes `newick[0]`), return `False` without touching
the tree when it does not start with `'('`; otherwise scan every character
(including the leading `'('`), give whatever remains in `word` to the root
via `self.infoAdd(word)`, and return `True` together with the tree now rooted
at `self`.  No unbalanced-parenthesis check exists: a leftover stack at end of
input is ignored. -/
def newickLoad (t : Node) (input : Str) : Except PyErr (Node × Bool) :=
  let s := rstripSemi (trimWs input)
  match s with
  | [] => .error .indexError
  | c :: _ =>
    if c = '(' then
      let f := flattenNode t []
      let init : PSt := ⟨f.1, [f.2], f.2, []⟩
      match s.foldlM pstep init with
      | .error e => .error e
      | .ok fin =>
        let r := infoAddAt fin.store f.2 fin.word
        match r.2 with
        | .error e => .error e
        | .ok _ => .ok (buildNode r.1 r.1.length f.2, true)
    else .ok (t, false)

/-- `Tree(newick=input)`: the constructor builds a fresh default node and
loads the Newick text into it (`infoAdd(name)` is skipped when a Newick
string is supplied). -/
def parseNewick (input : Str) : Except PyErr (Node × Bool) :=
  newickLoad defaultNode input

/-! ### `Tree.orderBySize` -/

/-- Stable insertion for ascending order: `x` goes before the first element
whose key is not smaller, so elements with equal keys keep their original
relative order. -/
def insertAsc (key : Node → Nat) (x : Node) : List Node → List Node
  | [] => [x]
  | y :: ys => if key y < key x then y :: insertAsc key x ys else x :: y :: ys

/-- Python `sorted(l, key=key)`: a stable ascending sort (any stable sort by
the same key produces the same list, so insertion sort models Timsort
exactly). -/
def pySortedAsc (key : Node → Nat) : List Node → List Node
  | [] => []
  | x :: xs => insertAsc key x (pySortedAsc key xs)

/-- Stable insertion for descending order: `x` goes before the first element
whose key is not larger, so elements with equal keys keep their original
relative order. -/
def insertDesc (key : Node → Nat) (x : Node) : List Node → List Node
  | [] => [x]
  | y :: ys => if key x < key y then y :: insertDesc key x ys else x :: y :: ys

/-- Python `sorted(l, reverse=True, key=key)`: a stable descending sort. -/
def pySortedDesc (key : Node → Nat) : List Node → List Node
  | [] => []
  | x :: xs => insertDesc key x (pySortedDesc key xs)

/-- The sort applied by the body of `orderBySize`: the `dir == 'left'` branch
uses `sorted(self.children, reverse=True, key=bySize)`, every other `dir`
uses `sorted(self.children, key=bySize)`; `bySize(node)` is `node.size()`. -/
def pySortBySize (dir : Str) (l : List Node) : List Node :=
  if dir = "left".toList then pySortedDesc size l else pySortedAsc size l

/-- The continuation of the `for node in self` loop of `orderBySize` after the
first iteration, transcribed from the `dfs_stack` generator the default mode
uses: `stack` holds the still-unvisited nodes (all of them immutable
descendants of the root, since the root is yielded first and never pushed
back), and `root` threads the current value of `self`, whose `children`
attribute is the only thing the loop body ever reassigns — the body reads
`node.children` of the visited node but always writes `self.children`. -/
def orderBySizeLoop (dir : Str) : List Node → Node → Node
  | [], root => root
  | d :: rest, root =>
    let root' := if d.children.isEmpty then root
                 else root.setChildren (pySortBySize dir root.children)
    orderBySizeLoop dir (d.children ++ rest) root'
termination_by stack => numNodesAll stack
decreasing_by
  cases d with
  | mk n b c cs m =>
    simp [numNodesAll, numNodesAll_append, Node.children, numNodes]

/-- `Tree.orderBySize(dir)`: iterate `for node in self` (the default
`dfs_stack` generator); at every visited node with children, reassign
`self.children = sorted(self.children, ...)`.  The first visited node is
`self` itself; the generator then resumes by pushing the (just reassigned)
children of `self`, after which `orderBySizeLoop` performs the remaining
iterations.  The Python method returns `True`; the model returns the mutated
tree. -/
def orderBySize (dir : Str) (t : Node) : Node :=
  if t.children.isEmpty then t
  else
    let t1 := t.setChildren (pySortBySize dir t.children)
    orderBySizeLoop dir t1.children t1

/-! ### Spec-side comparison definitions -/

mutual
/-- Height of a tree: a leaf has height `0`, an internal node one more than
the tallest child (spec-side notion used to compare `bfs` with level order). -/
def height : Node → Nat
  | .mk _ _ _ cs _ =>
    match cs with
    | [] => 0
    | _ :: _ => 1 + heightAll cs

/-- Maximum height over a forest. -/
def heightAll : List Node → Nat
  | [] => 0
  | t :: ts => max (height t) (heightAll ts)
end

/-- The nodes at depth `d` below `t`, in sibling order. -/
def levelNodes : Nat → Node → List Node
  | 0, t => [t]
  | d + 1, t => t.children.flatMap (levelNodes d)

/-- Modelled from the spec: "standard level order" — the root first, then
every node at depth `d` before any node at depth `d + 1`, nodes of each level
in sibling order.  This is the comparator the spec's breadth-first claim is
measured against; it is not a transcription of any `tree.py` code. -/
def specLevelOrder (t : Node) : List Node :=
  (List.range (height t + 1)).flatMap (fun d => levelNodes d t)

/-! ### Concrete trees used in the evaluations -/

/-- A leaf node labelled `s`, as built by `Tree(s)`/`childNew(s)`. -/
def leafN (s : String) : Node := .mk (some s.toList) none none [] .dfs_stack

/-- An internal node labelled `s` with the given children. -/
def nodeN (s : String) (kids : List Node) : Node :=
  .mk (some s.toList) none none kids .dfs_stack

/-- Is every child list of every node weakly descending by subtree size?
(`chainGe` checks one child list.) -/
def chainGe : List Nat → Bool
  | [] => true
  | [_] => true
  | a :: b :: rest => decide (b ≤ a) && chainGe (b :: rest)

/-- Does every node of the tree have its immediate children in weakly
descending order of `size()`? -/
def allKidsSortedDesc (t : Node) : Bool :=
  (dfs t).all (fun n => chainGe (n.children.map size))

/-! ### Traversal lemmas -/

/-- `dfsAll` distributes over forest concatenation. -/
theorem dfsAll_append (a b : List Node) :
    dfsAll (a ++ b) = dfsAll a ++ dfsAll b := by
  induction a with
  | nil => simp [dfsAll]
  | cons t ts ih => simp [dfsAll, ih]

/-- `dfs` yields the node itself first. -/
theorem dfs_eq_cons (t : Node) : dfs t = t :: dfsAll t.children := by
  cases t with
  | mk n b c cs m => simp [dfs, Node.children]

/-- The explicit-stack generator run from any stack produces the
concatenation of the recursive dfs sequences of the stack entries. -/
theorem tree_gen_stack_eq_dfsAll (l : List Node) :
    tree_gen_stack l = dfsAll l := by
  induction l using tree_gen_stack.induct with
  | case1 => simp [tree_gen_stack, dfsAll]
  | case2 t rest ih =>
    rw [tree_gen_stack, ih, dfsAll_append, dfsAll, dfs_eq_cons]
    simp [dfsAll]

mutual
/-- The recursive dfs generator yields each node exactly once: its sequence
has `numNodes` entries. -/
theorem len_dfs : ∀ t : Node, (dfs t).length = numNodes t
  | .mk n b c cs m => by
    rw [dfs, numNodes]
    simp [len_dfsAll cs]
    omega

/-- Length of the dfs sequence of a forest. -/
theorem len_dfsAll : ∀ l : List Node, (dfsAll l).length = numNodesAll l
  | [] => by rw [dfsAll, numNodesAll]; rfl
  | t :: ts => by
    rw [dfsAll, numNodesAll]
    simp [len_dfs t, len_dfsAll ts]
end

mutual
/-- The bfs-without-root sequence has one entry fewer than the node count. -/
theorem len_bfsNoRoot : ∀ t : Node, (bfsNoRoot t).length + 1 = numNodes t
  | .mk n b c cs m => by
    rw [bfsNoRoot, numNodes]
    have h := len_bfsNoRootAll cs
    simp at h ⊢
    omega

/-- Length of the bfs-without-root sequence of a forest. -/
theorem len_bfsNoRootAll :
    ∀ l : List Node, (bfsNoRootAll l).length + l.length = numNodesAll l
  | [] => by rw [bfsNoRootAll, numNodesAll]; rfl
  | t :: ts => by
    rw [bfsNoRootAll, numNodesAll]
    have h1 := len_bfsNoRoot t
    have h2 := len_bfsNoRootAll ts
    simp
    omega
end

/-- `Tree.size()` counts every node exactly once, whichever traversal mode
the node has. -/
theorem size_eq_numNodes (t : Node) : size t = numNodes t := by
  unfold size iterList
  cases t.mode with
  | dfs_stack =>
    rw [tree_gen_stack_eq_dfsAll, dfsAll, dfsAll]
    simp [len_dfs t]
  | dfs => exact len_dfs t
  | bfs =>
    show (bfs t).length = numNodes t
    rw [bfs]
    have := len_bfsNoRoot t
    simp
    omega

/-- The sizes of a forest sum to its node count. -/
theorem sum_map_size (l : List Node) :
    (l.map size).sum = numNodesAll l := by
  induction l with
  | nil => rw [numNodesAll]; rfl
  | cons t ts ih => rw [numNodesAll]; simp [size_eq_numNodes t, ih]

/-! ### Claim theorems: traversal engine -/

/-- Claim C5: for every tree, the recursive depth-first generator `dfs()` and
the explicit-stack depth-first generator `tree_gen_stack()` (started, as in
`__iter__`, with `self` as the only stack entry) yield node-for-node
identical sequences. -/
theorem dfs_recursive_eq_stack (t : Node) : tree_gen_stack [t] = dfs t := by
  rw [tree_gen_stack_eq_dfsAll, dfsAll, dfsAll, dfs_eq_cons]
  simp [dfsAll]

/-- Claim C7 (code_bug evaluation): `order()` starts its list with `[self]`
and then appends the whole active traversal — but every traversal mode yields
`self` first as well, so for every tree and every mode the returned list
begins `[root, root, ...]`: the root appears twice instead of exactly once. -/
theorem order_duplicates_root (t : Node) : (order t).take 2 = [t, t] := by
  have h : ∃ rest, iterList t = t :: rest := by
    unfold iterList
    cases hm : t.mode with
    | dfs_stack =>
      rw [tree_gen_stack_eq_dfsAll, dfsAll, dfsAll, dfs_eq_cons]
      exact ⟨_, rfl⟩
    | dfs => rw [dfs_eq_cons]; exact ⟨_, rfl⟩
    | bfs => exact ⟨_, rfl⟩
  obtain ⟨rest, hr⟩ := h
  simp [order, hr]

/-- Claim C8: for every node, whatever traversal mode it and its children
carry, `size()` equals `1` plus the sum of `size()` over the immediate
children (so a leaf has `size() = 1`). -/
theorem size_eq_one_add_children (t : Node) :
    size t = 1 + (t.children.map size).sum := by
  rw [size_eq_numNodes, sum_map_size]
  cases t with
  | mk n b c cs m => rw [numNodes, Node.children]

/-! ### Claim C6: `bfs` versus standard level order -/

/-- A tree of height `0` is a leaf. -/
theorem children_eq_nil_of_height_eq_zero (t : Node) (h : height t = 0) :
    t.children = [] := by
  cases t with
  | mk n b c cs m =>
    cases cs with
    | nil => rfl
    | cons c0 rest => rw [height] at h; simp at h

/-- A member of a forest is no taller than the forest. -/
theorem height_le_heightAll {c : Node} {l : List Node} (h : c ∈ l) :
    height c ≤ heightAll l := by
  induction l with
  | nil => cases h
  | cons t ts ih =>
    rw [heightAll]
    rcases List.mem_cons.mp h with h' | h'
    · subst h'; exact le_max_left _ _
    · exact le_trans (ih h') (le_max_right _ _)

/-- Below a node of height at most `1`, every grandchild list is empty. -/
theorem grandchildren_nil_of_height_le_one (c : Node) (h : height c ≤ 1) :
    ∀ g ∈ c.children, g.children = [] := by
  cases c with
  | mk n b cm cs m =>
    cases cs with
    | nil => intro g hg; cases hg
    | cons c0 rest =>
      rw [height] at h
      intro g hg
      have : height g ≤ heightAll (c0 :: rest) := height_le_heightAll hg
      exact children_eq_nil_of_height_eq_zero g (by omega)

/-- The bfs-without-root sequence of a forest of leaves is empty. -/
theorem bfsNoRootAll_of_leaves (l : List Node) (h : ∀ c ∈ l, c.children = []) :
    bfsNoRootAll l = [] := by
  induction l with
  | nil => rw [bfsNoRootAll]
  | cons t ts ih =>
    rw [bfsNoRootAll]
    have ht : t.children = [] := h t (List.mem_cons_self t ts)
    cases t with
    | mk n b c cs m =>
      rw [Node.children] at ht
      subst ht
      rw [bfsNoRoot, bfsNoRootAll]
      exact ih (fun c hc => h c (List.mem_cons_of_mem _ hc))

/-- For a node of height at most `1`, `bfsNoRoot` is exactly the child
list. -/
theorem bfsNoRoot_eq_children (c : Node) (h : height c ≤ 1) :
    bfsNoRoot c = c.children := by
  cases c with
  | mk n b cm cs m =>
    rw [bfsNoRoot, Node.children,
      bfsNoRootAll_of_leaves cs (grandchildren_nil_of_height_le_one _ h)]
    simp

/-- For a forest of height at most `1`, the bfs-without-root sequence is the
concatenation of the child lists. -/
theorem bfsNoRootAll_eq_flatMap (l : List Node) (h : ∀ c ∈ l, height c ≤ 1) :
    bfsNoRootAll l = l.flatMap Node.children := by
  induction l with
  | nil => rw [bfsNoRootAll]; rfl
  | cons t ts ih =>
    rw [bfsNoRootAll, List.flatMap_cons,
      bfsNoRoot_eq_children t (h t (List.mem_cons_self t ts)),
      ih (fun c hc => h c (List.mem_cons_of_mem _ hc))]

/-- Depth level `1` is the child list. -/
theorem levelNodes_one (c : Node) : levelNodes 1 c = c.children := by
  rw [levelNodes]
  induction c.children with
  | nil => rfl
  | cons g gs ih => rw [List.flatMap_cons, ih, levelNodes]; rfl

/-- Claim C6 (amended): `bfs()` agrees with standard level order on every
tree of height at most `2` (root, then children, then grandchildren); for
deeper trees the sequences diverge, see the counterexample. -/
theorem bfs_eq_level_order_of_height_le_two (t : Node) (h : height t ≤ 2) :
    bfs t = specLevelOrder t := by
  cases t with
  | mk n b c cs m =>
    cases cs with
    | nil =>
      rw [bfs, bfsNoRoot, bfsNoRootAll, specLevelOrder]
      simp [height, List.range_succ, levelNodes]
    | cons c0 rest =>
      simp only [height] at h
      have hAll : heightAll (c0 :: rest) ≤ 1 := by omega
      have hmem : ∀ ci ∈ c0 :: rest, height ci ≤ 1 :=
        fun ci hm => le_trans (height_le_heightAll hm) hAll
      rw [bfs, bfsNoRoot, specLevelOrder]
      simp only [height]
      rcases Nat.le_one_iff_eq_zero_or_eq_one.mp hAll with h0 | h1
      · have hleaves : ∀ ci ∈ c0 :: rest, ci.children = [] := by
          intro ci hm
          exact children_eq_nil_of_height_eq_zero ci
            (by have := height_le_heightAll hm; omega)
        rw [bfsNoRootAll_of_leaves _ hleaves, h0]
        simp [List.range_succ, levelNodes_one, levelNodes, Node.children]
      · rw [bfsNoRootAll_eq_flatMap _ hmem, h1]
        simp [List.range_succ, levelNodes, levelNodes_one, Node.children]
        rfl

/-- A height-3 tree on which `bfs` and level order diverge:
`r → [A → [C → [D]], B → [E]]`.  `bfs` yields `r, A, B, C, D, E` (the entire
`bfsNoRoot` block of sibling `A`, including depth-3 node `D`, comes before
`B`'s depth-2 child `E`); level order yields `r, A, B, C, E, D`. -/
def Tc6 : Node :=
  nodeN "r" [nodeN "A" [nodeN "C" [leafN "D"]], nodeN "B" [leafN "E"]]

/-- Claim C6 counterexample: on the height-3 tree `Tc6`, `bfs()` does not
yield standard level order — the depth-3 node `D` is yielded before the
depth-2 node `E`. -/
theorem bfs_not_level_order :
    (bfs Tc6).map Node.name ≠ (specLevelOrder Tc6).map Node.name := by decide

/-- A height-2 tree for the witness: `r → [a → [c], b]`. -/
def Tc6w : Node := nodeN "r" [nodeN "a" [leafN "c"], leafN "b"]

/-- Claim C6 witness: the amended statement applied to the concrete height-2
tree `Tc6w`. -/
theorem bfs_eq_level_order_witness :
    height Tc6w ≤ 2 ∧ bfs Tc6w = specLevelOrder Tc6w :=
  ⟨by decide, bfs_eq_level_order_of_height_le_two Tc6w (by decide)⟩

/-! ### String lemmas for the payload codec claims -/

/-- A string that does not contain `c` splits into itself alone. -/
theorem splitOnChar_of_not_mem (c : Char) (s : Str)
    (h : c ∉ s) : splitOnChar c s = [s] := by
  induction s with
  | nil => rfl
  | cons x xs ih =>
    simp at h
    rw [splitOnChar]
    rw [if_neg (Ne.symm h.1), ih h.2]

/-- Splitting `n ++ c :: w` on `c` when neither part contains `c` gives
exactly the pair `[n, w]` — the shape Python's
`name, word = word.split(':')` unpacks. -/
theorem splitOnChar_exact (c : Char) (n w : Str)
    (hn : c ∉ n) (hw : c ∉ w) :
    splitOnChar c (n ++ c :: w) = [n, w] := by
  induction n with
  | nil => rw [List.nil_append, splitOnChar, if_pos rfl,
      splitOnChar_of_not_mem c w hw]
  | cons x xs ih =>
    simp at hn
    rw [List.cons_append, splitOnChar, if_neg (Ne.symm hn.1),
      ih hn.2]

/-- `n ++ c :: w` does contain `c`. -/
theorem contains_append_cons (c : Char) (n w : Str) :
    (n ++ c :: w).contains c = true := by
  induction n with
  | nil => simp [List.contains_cons]
  | cons x xs ih => simp [List.contains_cons, ih]

/-- A string containing no occurrence of `c` reports `contains c = false`. -/
theorem contains_eq_false_of_not_mem (c : Char) (s : Str) (h : c ∉ s) :
    s.contains c = false := by
  induction s with
  | nil => rfl
  | cons x xs ih =>
    simp at h
    rw [List.contains_cons, ih h.2, Bool.or_false, beq_eq_false_iff_ne]
    exact h.1

/-- `infoAddCore` on a payload `name:<non-numeric>`: the split succeeds, the
name is reassigned, and `float()` raises, so the result pairs the
partially-updated attributes (name overwritten, branch length and comment
untouched) with the `ValueError`. -/
theorem infoAddCore_malformed (n0 : Option Str) (bl0 : Option ℚ)
    (com0 : Option Str) (n w : Str) (hn : ':' ∉ n) (hw : ':' ∉ w)
    (hb : '[' ∉ w) (hf : pyFloat w = none) :
    infoAddCore n0 bl0 com0 (n ++ ':' :: w) =
      ((some n, bl0, com0), .error .valueError) := by
  have hne : n ++ ':' :: w ≠ [] := by simp
  have hcb : w.contains '[' = false := contains_eq_false_of_not_mem '[' w hb
  rw [infoAddCore, if_neg hne, contains_append_cons,
    splitOnChar_exact ':' n w hn hw]
  simp only [hcb, hf]
  rfl

/-! ### Claims C9 and C10: payload decode failure behaviour -/

/-- Claim C9: decoding a payload whose text after `':'` is not a valid
decimal number is a hard failure — `infoAdd` raises the `ValueError` that
models the spec's `MalformedPayload` and never substitutes a default — and
the failure propagates out of the parser: `parse("(a:xyz)")` fails with that
error. -/
theorem malformed_branchlen_hard_failure (t : Node) (n w : Str)
    (hn : ':' ∉ n) (hw : ':' ∉ w) (hb : '[' ∉ w) (hf : pyFloat w = none) :
    (infoAdd t (n ++ ':' :: w)).2 = .error .valueError ∧
    parseNewick "(a:xyz)".toList = .error .valueError := by
  refine ⟨?_, rfl⟩
  cases t with
  | mk n0 b0 c0 cs m =>
    rw [infoAdd, infoAddCore_malformed n0 b0 c0 n w hn hw hb hf]

/-- Claim C9 witness: the general statement applied to name `a` and
non-numeric branch-length text `xyz`. -/
theorem malformed_branchlen_hard_failure_witness :
    ((':' ∉ ("a".toList : Str)) ∧ (':' ∉ ("xyz".toList : Str)) ∧
     ('[' ∉ ("xyz".toList : Str)) ∧ pyFloat "xyz".toList = none) ∧
    (infoAdd defaultNode ("a".toList ++ ':' :: "xyz".toList)).2 =
      .error .valueError :=
  ⟨⟨by decide, by decide, by decide, by decide⟩,
   (malformed_branchlen_hard_failure defaultNode "a".toList "xyz".toList
      (by decide) (by decide) (by decide) (by decide)).1⟩

/-- Claim C10: `infoAdd` is not atomic on error — on a payload
`name:<non-numeric>` it raises, but by that time `self.name` has already been
overwritten with the text before the `':'` (branch length, comment and
children are still untouched), so a node whose name differed is left in a
changed state. -/
theorem infoAdd_not_atomic_on_error (t : Node) (n w : Str)
    (hn : ':' ∉ n) (hw : ':' ∉ w) (hb : '[' ∉ w) (hf : pyFloat w = none) :
    (infoAdd t (n ++ ':' :: w)).2 = .error .valueError ∧
    (infoAdd t (n ++ ':' :: w)).1.name = some n ∧
    (infoAdd t (n ++ ':' :: w)).1.branchlen = t.branchlen ∧
    (infoAdd t (n ++ ':' :: w)).1.comment = t.comment ∧
    (infoAdd t (n ++ ':' :: w)).1.children = t.children := by
  cases t with
  | mk n0 b0 c0 cs m =>
    rw [infoAdd, infoAddCore_malformed n0 b0 c0 n w hn hw hb hf]
    exact ⟨rfl, rfl, rfl, rfl, rfl⟩

/-- A node that already carries a name, to exhibit the overwrite. -/
def TcOrig : Node := leafN "orig"

/-- Claim C10 witness: applying the theorem to the node named `orig` and the
payload `a:xyz` — the raise happens with the name already replaced by `a`. -/
theorem infoAdd_not_atomic_witness :
    ((':' ∉ ("a".toList : Str)) ∧ (':' ∉ ("xyz".toList : Str)) ∧
     ('[' ∉ ("xyz".toList : Str)) ∧ pyFloat "xyz".toList = none) ∧
    (infoAdd TcOrig ("a".toList ++ ':' :: "xyz".toList)).2 =
      .error .valueError ∧
    (infoAdd TcOrig ("a".toList ++ ':' :: "xyz".toList)).1.name =
      some "a".toList ∧
    TcOrig.name = some "orig".toList :=
  ⟨⟨by decide, by decide, by decide, by decide⟩,
   (infoAdd_not_atomic_on_error TcOrig "a".toList "xyz".toList
      (by decide) (by decide) (by decide) (by decide)).1,
   (infoAdd_not_atomic_on_error TcOrig "a".toList "xyz".toList
      (by decide) (by decide) (by decide) (by decide)).2.1,
   by decide⟩

/-! ### Claim C3: text without a leading parenthesis -/

/-- Claim C3 counterexample: `parse("a,b)")` does not fail at all — no
exception is raised, no `FormatError` exists anywhere in the code; the call
returns normally (the method's `False` status is discarded by the
constructor, which yields a default empty node). -/
theorem parse_missing_paren_no_failure :
    parseNewick "a,b)".toList = .ok (defaultNode, false) := rfl

/-- Claim C3 (amended): when the stripped text is non-empty and does not
begin with `'('`, `newickLoad` detects the condition but reports it only by
printing a message and returning `False`; the tree is left untouched and no
exception is raised. -/
theorem newickLoad_no_open_paren (t : Node) (s : Str)
    (h1 : rstripSemi (trimWs s) ≠ [])
    (h2 : (rstripSemi (trimWs s)).head? ≠ some '(') :
    newickLoad t s = .ok (t, false) := by
  unfold newickLoad
  cases hs : rstripSemi (trimWs s) with
  | nil => exact absurd hs h1
  | cons c cs =>
    have hc : c ≠ '(' := by
      rw [hs] at h2
      simpa using h2
    simp [hc]

/-- Claim C3 witness: the amended statement applied to the input `a,b)` and a
tree that carries a name, showing the tree comes back unchanged. -/
theorem newickLoad_no_open_paren_witness :
    (rstripSemi (trimWs "a,b)".toList) ≠ [] ∧
     (rstripSemi (trimWs "a,b)".toList)).head? ≠ some '(') ∧
    newickLoad TcOrig "a,b)".toList = .ok (TcOrig, false) :=
  ⟨⟨by decide, by decide⟩,
   newickLoad_no_open_paren TcOrig "a,b)".toList (by decide) (by decide)⟩

/-! ### Claim C4: unbalanced parentheses -/

/-- The tree silently produced from the unbalanced input `((a)`. -/
def Tc4 : Node :=
  .mk none none none
    [.mk none none none [.mk (some "a".toList) none none [] .dfs_stack]
      .dfs_stack] .dfs_stack

/-- Claim C4 (code_bug evaluation): the parser has no balance check — input
`((a)` (an unclosed parenthesis, so the stack of open parents is non-empty at
end of input) silently returns `True` with a tree, and input `()))` (a `')'`
arriving once the stack is already empty) raises a bare `IndexError` from
`stack.pop()`; neither is the `FormatError("unbalanced parentheses")` the
spec mandates. -/
theorem unbalanced_parens_not_detected :
    parseNewick "((a)".toList = .ok (Tc4, true) ∧
    parseNewick "()))".toList = .error .indexError :=
  ⟨rfl, rfl⟩

/-! ### Claim C1: Newick round-trip -/

/-- The tree parsed from `(a:0.0)`: one child `a` with branch length `0`. -/
def Tc1 : Node :=
  .mk none none none [.mk (some "a".toList) (some 0) none [] .dfs_stack]
    .dfs_stack

/-- The tree re-parsed from the rendering of `Tc1`: the branch length is
gone. -/
def Tc1r : Node :=
  .mk none none none [.mk (some "a".toList) none none [] .dfs_stack]
    .dfs_stack

/-- Claim C1 (code_bug evaluation): round-tripping is broken for zero branch
lengths — parsing `(a:0.0)` stores branch length `0` on node `a`, but
`newick()` renders the tree as `(a)` because `infoGet` guards the `:length`
field with Python truthiness (`if self.branchlen:`) and `0.0` is falsy, so
re-parsing the rendered text yields a node `a` with no branch length at
all. -/
theorem roundtrip_drops_zero_branchlen :
    parseNewick "(a:0.0)".toList = .ok (Tc1, true) ∧
    newickStr Tc1 = "(a)".toList ∧
    parseNewick (newickStr Tc1) = .ok (Tc1r, true) ∧
    (dfs Tc1).map Node.branchlen = [none, some 0] ∧
    (dfs Tc1r).map Node.branchlen = [none, none] := by
  refine ⟨?_, ?_, ?_, ?_, ?_⟩ <;> with_unfolding_all rfl

/-! ### Claim C2: orderBySize -/

/-- Tree for the `orderBySize` evaluation:
`r → [A → [b, C → [c, d]], e]`.  The root's children already satisfy the
descending-size order (`size A = 5 ≥ size e = 1`), but the inner node `A` has
its children in ascending size order (`size b = 1 < size C = 3`). -/
def Tc2 : Node :=
  nodeN "r" [nodeN "A" [leafN "b", nodeN "C" [leafN "c", leafN "d"]], leafN "e"]

/-- Claim C2 (code_bug evaluation): `orderBySize('left')` sorts
`self.children` — the root's list — at every iteration instead of
`node.children`, so it leaves `Tc2` completely unchanged: the inner node `A`
keeps its ascending children `[b (size 1), C (size 3)]` and the resulting
tree violates the claimed every-internal-node descending property. -/
theorem orderBySize_misses_inner_nodes :
    orderBySize "left".toList Tc2 = Tc2 ∧
    allKidsSortedDesc (orderBySize "left".toList Tc2) = false ∧
    (dfs Tc2).map (fun nd => nd.children.map size) =
      [[5, 1], [1, 3], [], [1, 1], [], [], []] := by
  refine ⟨?_, ?_, ?_⟩ <;> with_unfolding_all rfl

end TreePy
